import Mathlib

/-!
Formal model of the core numeric pipeline of `4-Video.ipynb`
(video sliding-window embeddings and periodicity ranking).
Machine floating-point is modelled by exact arithmetic: `ℚ` for the
index/interpolation computations and `ℝ` where square roots occur.
-/

/-- Linear interpolation in time of the series `I` (rows = frames,
columns = pixels) at real-valued time `t`, pixel `p`: the value
`scipy.interpolate.interp2d(pix, idx[start:end+1], ..., kind='linear')`
produces at query point `(p, t)` when the integer grid rows surrounding
`t` lie inside `start..end`. -/
def interpAt (I : ℕ → ℕ → ℚ) (t : ℚ) (p : ℕ) : ℚ :=
  I ⌊t⌋.toNat p * ((⌊t⌋ : ℚ) + 1 - t) + I (⌊t⌋.toNat + 1) p * (t - (⌊t⌋ : ℚ))

/-- One sliding-window row: the row-major flattening `f(pix, idxx).flatten()`
of the `dim × P` matrix of values interpolated at times
`idxx = dT*i + Tau*np.arange(dim)`. -/
def windowRow (I : ℕ → ℕ → ℚ) (P dim : ℕ) (Tau dT : ℚ) (i : ℕ) : List ℚ :=
  (List.range dim).flatMap (fun k => (List.range P).map (interpAt I (dT * i + Tau * k)))

/-- `end = int(np.ceil(idxx[-1])) + 2`: the largest frame index window `i`
fetches for its interpolation grid (`idxx[-1] = dT*i + Tau*(dim-1)`). -/
def swEnd (dim : ℕ) (Tau dT : ℚ) (i : ℕ) : ℤ :=
  ⌈dT * i + Tau * ((dim : ℚ) - 1)⌉ + 2

/-- The `for i in range(NWindows)` loop of `getSlidingWindowVideo`: emits
row `i` when `end < N` (the `if end >= I.shape[0]` guard fails) and
otherwise truncates the output to the rows built so far (`X = X[0:i, :]`
followed by `break`). `fuel` is the number of remaining iterations. -/
def swLoop (I : ℕ → ℕ → ℚ) (N P dim : ℕ) (Tau dT : ℚ) : ℕ → ℕ → List (List ℚ)
  | _, 0 => []
  | i, fuel + 1 =>
    if swEnd dim Tau dT i < (N : ℤ) then
      windowRow I P dim Tau dT i :: swLoop I N P dim Tau dT (i + 1) fuel
    else []

/-- `getSlidingWindowVideo(I, dim, Tau, dT)` from the notebook, for a
series with `N` frames and `P` pixels. `NWindows = int(np.floor((N -
dim*Tau)/dT))`; when `NWindows` is negative, `np.zeros((NWindows, dim*P))`
raises `ValueError: negative dimensions are not allowed`, modelled as
`none`; otherwise the loop fills (and possibly truncates) the rows. -/
def getSlidingWindowVideo (I : ℕ → ℕ → ℚ) (N P dim : ℕ) (Tau dT : ℚ) :
    Option (List (List ℚ)) :=
  let NWindows : ℤ := ⌊((N : ℚ) - dim * Tau) / dT⌋
  if NWindows < 0 then none
  else some (swLoop I N P dim Tau dT 0 NWindows.toNat)

lemma swLoop_spec (I : ℕ → ℕ → ℚ) (N P dim : ℕ) (Tau dT : ℚ) :
    ∀ fuel i : ℕ, ∃ c : ℕ, c ≤ fuel ∧
      (∀ j < c, swEnd dim Tau dT (i + j) < (N : ℤ)) ∧
      (c = fuel ∨ ¬ swEnd dim Tau dT (i + c) < (N : ℤ)) ∧
      swLoop I N P dim Tau dT i fuel =
        (List.range c).map (fun j => windowRow I P dim Tau dT (i + j)) := by
  intro fuel
  induction fuel with
  | zero =>
    intro i
    exact ⟨0, le_refl 0, by omega, Or.inl rfl, rfl⟩
  | succ fuel ih =>
    intro i
    by_cases h : swEnd dim Tau dT i < (N : ℤ)
    · obtain ⟨c, hc, hall, hstop, heq⟩ := ih (i + 1)
      refine ⟨c + 1, by omega, ?_, ?_, ?_⟩
      · intro j hj
        rcases Nat.eq_zero_or_pos j with hj0 | hj0
        · simpa [hj0] using h
        · have hj1 : j - 1 < c := by omega
          have := hall (j - 1) hj1
          have hij : i + 1 + (j - 1) = i + j := by omega
          rwa [hij] at this
      · rcases hstop with hstop | hstop
        · exact Or.inl (by omega)
        · have hij : i + 1 + c = i + (c + 1) := by omega
          rw [hij] at hstop
          exact Or.inr hstop
      · rw [swLoop, if_pos h, heq, List.range_succ_eq_map, List.map_cons,
          List.map_map]
        refine congrArg₂ List.cons (by rw [Nat.add_zero]) ?_
        refine List.map_congr_left ?_
        intro j _
        have : i + 1 + j = i + (j + 1) := by omega
        simp [Function.comp, this]
    · refine ⟨0, by omega, by omega, Or.inr (by simpa using h), ?_⟩
      rw [swLoop, if_neg h]
      rfl

/-- C1: with `dim*Tau < N` (and positive step), `getSlidingWindowVideo`
succeeds and returns the rows `windowRow 0 .. windowRow (m-1)` where `m`
is `NumWindows = ⌊(N - dim*Tau)/dT⌋` unless the needed frame range of an
earlier window reaches past the available frames, in which case the
output is truncated right before the first such window. -/
theorem getSlidingWindowVideo_rows (I : ℕ → ℕ → ℚ) (N P dim : ℕ) (Tau dT : ℚ)
    (_hdim : 1 ≤ dim) (_hTau : 0 < Tau) (hdT : 0 < dT)
    (hlt : (dim : ℚ) * Tau < N) :
    ∃ m : ℕ, m ≤ (⌊((N : ℚ) - dim * Tau) / dT⌋).toNat ∧
      (∀ i < m, swEnd dim Tau dT i < (N : ℤ)) ∧
      (m = (⌊((N : ℚ) - dim * Tau) / dT⌋).toNat ∨ ¬ swEnd dim Tau dT m < (N : ℤ)) ∧
      getSlidingWindowVideo I N P dim Tau dT =
        some ((List.range m).map (windowRow I P dim Tau dT)) := by
  have hpos : (0 : ℚ) ≤ ((N : ℚ) - dim * Tau) / dT :=
    le_of_lt (div_pos (by linarith) hdT)
  have hfl : (0 : ℤ) ≤ ⌊((N : ℚ) - dim * Tau) / dT⌋ := Int.floor_nonneg.mpr hpos
  obtain ⟨c, hc, hall, hstop, heq⟩ :=
    swLoop_spec I N P dim Tau dT (⌊((N : ℚ) - dim * Tau) / dT⌋).toNat 0
  refine ⟨c, hc, by simpa using hall, by simpa using hstop, ?_⟩
  rw [getSlidingWindowVideo]
  simp only [not_lt.mpr hfl, if_neg (not_lt.mpr hfl)]
  rw [heq]
  simp

/-- Closed witness for `getSlidingWindowVideo_rows` at `N = 10`, `P = 2`,
`dim = 2`, `Tau = 1`, `dT = 1`, on the series `I r p = r`. -/
theorem getSlidingWindowVideo_rows_witness :
    (1 ≤ 2) ∧ ((0 : ℚ) < 1) ∧ ((0 : ℚ) < 1) ∧ ((2 : ℚ) * 1 < (10 : ℕ)) ∧
      (∃ m : ℕ, m ≤ (⌊(((10 : ℕ) : ℚ) - (2 : ℕ) * 1) / 1⌋).toNat ∧
        (∀ i < m, swEnd 2 1 1 i < ((10 : ℕ) : ℤ)) ∧
        (m = (⌊(((10 : ℕ) : ℚ) - (2 : ℕ) * 1) / 1⌋).toNat ∨
          ¬ swEnd 2 1 1 m < ((10 : ℕ) : ℤ)) ∧
        getSlidingWindowVideo (fun r _ => (r : ℚ)) 10 2 2 1 1 =
          some ((List.range m).map (windowRow (fun r _ => (r : ℚ)) 2 2 1 1))) :=
  ⟨by norm_num, by norm_num, by norm_num, by norm_num,
    getSlidingWindowVideo_rows (fun r _ => (r : ℚ)) 10 2 2 1 1
      (by norm_num) (by norm_num) (by norm_num) (by norm_num)⟩

/-- Counterexample to the claim that `dim*Tau ≥ N` always yields an empty
cloud: at `N = 5`, `dim = 3`, `Tau = 2` (so `dim*Tau = 6 ≥ 5`), `dT = 1`,
`NWindows = ⌊(5-6)/1⌋ = -1` and `np.zeros((-1, dim*P))` raises
`ValueError` (modelled as `none`): no empty cloud is returned. -/
theorem getSlidingWindowVideo_neg_raises :
    ((5 : ℕ) : ℚ) ≤ ((3 : ℕ) : ℚ) * 2 ∧
      getSlidingWindowVideo (fun _ _ => 0) 5 2 3 2 1 = none := by
  constructor
  · norm_num
  · rw [getSlidingWindowVideo]
    have h : (((5 : ℕ) : ℚ) - ((3 : ℕ) : ℚ) * 2) / 1 = ((-1 : ℤ) : ℚ) := by
      norm_num
    rw [h, Int.floor_intCast]
    norm_num

/-- C2 amended: with a positive step and `dim*Tau ≥ N`, the embedder
returns the empty cloud exactly when `dim*Tau = N` (then `NWindows = 0`);
when `dim*Tau > N` the negative `NWindows` makes the `np.zeros`
allocation raise instead. -/
theorem getSlidingWindowVideo_insufficient (I : ℕ → ℕ → ℚ) (N P dim : ℕ)
    (Tau dT : ℚ) (hdT : 0 < dT) (hge : (N : ℚ) ≤ (dim : ℚ) * Tau) :
    getSlidingWindowVideo I N P dim Tau dT =
      if (dim : ℚ) * Tau = (N : ℚ) then some [] else none := by
  by_cases heq : (dim : ℚ) * Tau = (N : ℚ)
  · rw [if_pos heq, getSlidingWindowVideo]
    have hsub : ((N : ℚ) - dim * Tau) / dT = 0 := by
      rw [heq, sub_self, zero_div]
    rw [hsub, Int.floor_zero]
    norm_num [swLoop]
  · rw [if_neg heq, getSlidingWindowVideo]
    have hlt : ((N : ℚ) - dim * Tau) / dT < 0 :=
      div_neg_of_neg_of_pos (by cases lt_or_eq_of_le hge with
        | inl h => linarith
        | inr h => exact absurd h.symm heq) hdT
    rw [if_pos (Int.floor_lt.mpr (by simpa using hlt))]

/-- Closed witness for `getSlidingWindowVideo_insufficient` at `N = 5`,
`dim = 5`, `Tau = 1`, `dT = 1`. -/
theorem getSlidingWindowVideo_insufficient_witness :
    ((0 : ℚ) < 1) ∧ (((5 : ℕ) : ℚ) ≤ ((5 : ℕ) : ℚ) * 1) ∧
      getSlidingWindowVideo (fun r _ => (r : ℚ)) 5 3 5 1 1 =
        if ((5 : ℕ) : ℚ) * 1 = ((5 : ℕ) : ℚ) then some [] else none :=
  ⟨by norm_num, by norm_num,
    getSlidingWindowVideo_insufficient (fun r _ => (r : ℚ)) 5 3 5 1 1
      (by norm_num) (by norm_num)⟩

/-- One block's index list from the KTH loop:
`thisidxs = np.arange(k*BlockHop, k*BlockHop+BlockLen)` followed by the
clamp `thisidxs = thisidxs[thisidxs < N]`. -/
def blockIdxs (BlockHop BlockLen N k : ℕ) : List ℕ :=
  ((List.range BlockLen).map (fun j => k * BlockHop + j)).filter
    (fun x => x < N)

/-- `NBlocks = int(np.ceil(1 + (N - BlockLen)/BlockHop))`. -/
def NBlocks (BlockHop BlockLen N : ℕ) : ℤ :=
  ⌈1 + ((N : ℚ) - BlockLen) / BlockHop⌉

/-- The list `idxs` of per-block index lists built by
`for k in range(NBlocks)` (a negative or zero `NBlocks` yields an empty
`range`, matching `Int.toNat`). -/
def blocksList (BlockHop BlockLen N : ℕ) : List (List ℕ) :=
  (List.range (NBlocks BlockHop BlockLen N).toNat).map
    (blockIdxs BlockHop BlockLen N)

lemma mem_blockIdxs_iff (H L N k n : ℕ) :
    n ∈ blockIdxs H L N k ↔ k * H ≤ n ∧ n < k * H + L ∧ n < N := by
  simp only [blockIdxs, List.mem_filter, List.mem_map, List.mem_range,
    decide_eq_true_eq]
  constructor
  · rintro ⟨⟨j, hj, rfl⟩, hn⟩
    omega
  · rintro ⟨h1, h2, h3⟩
    exact ⟨⟨n - k * H, by omega, by omega⟩, h3⟩

lemma NBlocks_sub_one_mul (H L N : ℕ) (hH : 0 < H) :
    (N : ℤ) - L ≤ (NBlocks H L N - 1) * H := by
  have h1 : (1 : ℚ) + ((N : ℚ) - L) / H ≤ (NBlocks H L N : ℚ) :=
    Int.le_ceil _
  have hH' : (0 : ℚ) < H := by exact_mod_cast hH
  have h2 : ((N : ℚ) - L) / H ≤ (NBlocks H L N : ℚ) - 1 := by linarith
  have h3 : (N : ℚ) - L ≤ ((NBlocks H L N : ℚ) - 1) * H := by
    rwa [div_le_iff₀ hH'] at h2
  exact_mod_cast h3

lemma NBlocks_pos (H L N : ℕ) (hH : 0 < H) (hLN : L ≤ N) :
    1 ≤ NBlocks H L N := by
  have hH' : (0 : ℚ) < H := by exact_mod_cast hH
  have h0 : (0 : ℚ) ≤ ((N : ℚ) - L) / H := by
    apply div_nonneg _ (le_of_lt hH')
    have : (L : ℚ) ≤ N := by exact_mod_cast hLN
    linarith
  have h1 : (1 : ℚ) ≤ (NBlocks H L N : ℚ) :=
    le_trans (by linarith) (Int.le_ceil _)
  exact_mod_cast h1

/-- C5 amended: with `0 < BlockHop`, `BlockHop ≤ BlockLen` and
`BlockLen ≤ N`, the KTH loop builds exactly `NBlocks` blocks, every block
index is `< N` (the clamp), and every series index below `N` lies in some
block (the union of the blocks covers `[0, N)`). -/
theorem blocksList_cover (H L N : ℕ) (hH : 0 < H) (hHL : H ≤ L)
    (hLN : L ≤ N) :
    (blocksList H L N).length = (NBlocks H L N).toNat ∧
    (∀ b ∈ blocksList H L N, ∀ x ∈ b, x < N) ∧
    (∀ n < N, ∃ k < (NBlocks H L N).toNat, n ∈ blockIdxs H L N k) := by
  have hpos := NBlocks_pos H L N hH hLN
  have hMZ : (((NBlocks H L N).toNat : ℤ)) = NBlocks H L N :=
    Int.toNat_of_nonneg (by omega)
  set M := (NBlocks H L N).toNat with hMdef
  have hM1 : 1 ≤ M := by omega
  have hub : (N : ℤ) - L ≤ ((M : ℤ) - 1) * H := by
    rw [hMZ]
    exact NBlocks_sub_one_mul H L N hH
  refine ⟨by simp [blocksList], ?_, ?_⟩
  · intro b hb x hx
    simp only [blocksList, List.mem_map] at hb
    obtain ⟨k, _, rfl⟩ := hb
    exact ((mem_blockIdxs_iff H L N k x).mp hx).2.2
  · intro n hn
    by_cases hcase : n / H ≤ M - 1
    · refine ⟨n / H, by omega, ?_⟩
      rw [mem_blockIdxs_iff]
      refine ⟨Nat.div_mul_le_self n H, ?_, hn⟩
      exact lt_of_lt_of_le (Nat.lt_div_mul_add hH) (Nat.add_le_add_left hHL _)
    · refine ⟨M - 1, by omega, ?_⟩
      rw [mem_blockIdxs_iff]
      refine ⟨?_, ?_, hn⟩
      · calc (M - 1) * H ≤ n / H * H :=
              Nat.mul_le_mul_right H (le_of_lt (by omega))
          _ ≤ n := Nat.div_mul_le_self n H
      · have hZ : (n : ℤ) < ((M - 1 : ℕ) : ℤ) * H + L := by
          rw [Nat.cast_sub hM1]
          have hnN : (n : ℤ) < N := by exact_mod_cast hn
          push_cast
          linarith
        exact_mod_cast hZ

/-- Closed witness for `blocksList_cover` at `BlockHop = 2`,
`BlockLen = 3`, `N = 7`. -/
theorem blocksList_cover_witness :
    (0 < 2) ∧ (2 ≤ 3) ∧ (3 ≤ 7) ∧
      ((blocksList 2 3 7).length = (NBlocks 2 3 7).toNat ∧
        (∀ b ∈ blocksList 2 3 7, ∀ x ∈ b, x < 7) ∧
        (∀ n < 7, ∃ k < (NBlocks 2 3 7).toNat, n ∈ blockIdxs 2 3 7 k)) :=
  ⟨by norm_num, by norm_num, by norm_num,
    blocksList_cover 2 3 7 (by norm_num) (by norm_num) (by norm_num)⟩

lemma NBlocks_two_one_two : NBlocks 2 1 2 = 2 := by
  rw [NBlocks, Int.ceil_eq_iff] <;> norm_num

/-- Counterexample to unrestricted coverage: with `BlockLen = 1`,
`BlockHop = 2`, `N = 2` (so `N ≥ BlockLen` and `BlockHop > 0` hold as the
claim requires), `NBlocks = ⌈1 + 1/2⌉ = 2` but the blocks are `[0]` and
`[]`: index `1` is in no block, so the union does not cover `[0, N)`. -/
theorem blocksList_cover_cex :
    1 ≤ 2 ∧ 0 < 2 ∧
      ¬ (∀ n < 2, ∃ k < (NBlocks 2 1 2).toNat, n ∈ blockIdxs 2 1 2 k) := by
  refine ⟨by norm_num, by norm_num, ?_⟩
  intro hcl
  obtain ⟨k, hk, hmem⟩ := hcl 1 (by norm_num)
  rw [NBlocks_two_one_two] at hk
  have hk2 : k < 2 := by exact_mod_cast hk
  interval_cases k
  · exact absurd hmem (by decide)
  · exact absurd hmem (by decide)

/-- `Tau = win/float(dim-1)` from the KTH block loop. -/
def kthTau (win dim : ℕ) : ℚ := (win : ℚ) / ((dim : ℚ) - 1)

/-- `dT = (len(idx)-dim*Tau)/float(len(idx))` from the KTH block loop. -/
def kthDT (B win dim : ℕ) : ℚ := ((B : ℚ) - dim * kthTau win dim) / B

/-- One iteration of the KTH block loop:
`XS = getSlidingWindowVideo(X[idx, :], dim, Tau, dT)` where
`idx = idxs[k]` and `Tau`, `dT` are computed from `len(idx)`. -/
def kthBlockCloud (X : ℕ → ℕ → ℚ) (P H L N win dim k : ℕ) :
    Option (List (List ℚ)) :=
  getSlidingWindowVideo (fun r p => X ((blockIdxs H L N k).getD r 0) p)
    (blockIdxs H L N k).length P dim (kthTau win dim)
    (kthDT (blockIdxs H L N k).length win dim)

lemma blockIdxs_length (H L N k : ℕ) :
    (blockIdxs H L N k).length = min L (N - k * H) := by
  induction L with
  | zero => simp [blockIdxs]
  | succ L ih =>
    rw [blockIdxs, List.range_succ, List.map_append, List.filter_append,
      List.length_append]
    rw [blockIdxs] at ih
    rw [ih]
    by_cases h : k * H + L < N
    · simp only [List.map_cons, List.map_nil, List.filter_cons]
      rw [if_pos (by simpa using h)]
      simp only [List.filter_nil, List.length_cons, List.length_nil]
      omega
    · simp only [List.map_cons, List.map_nil, List.filter_cons]
      rw [if_neg (by simpa using h)]
      simp only [List.filter_nil, List.length_nil]
      omega

/-- C9: for a block with `k*BlockHop < N`, the KTH loop computes
`Tau = win/(dim-1)` and `dT = (blockLen - dim*Tau)/blockLen` with
`blockLen` the block's actual (clamped) length `min BlockLen (N -
k*BlockHop)`, and feeds them to the Delay Embedder on that block. -/
theorem kthBlockCloud_params (X : ℕ → ℕ → ℚ) (P H L N win dim k : ℕ)
    (_hk : k * H < N) :
    kthTau win dim = (win : ℚ) / ((dim : ℚ) - 1) ∧
    (blockIdxs H L N k).length = min L (N - k * H) ∧
    kthBlockCloud X P H L N win dim k =
      getSlidingWindowVideo (fun r p => X ((blockIdxs H L N k).getD r 0) p)
        (min L (N - k * H)) P dim ((win : ℚ) / ((dim : ℚ) - 1))
        ((((min L (N - k * H) : ℕ) : ℚ) -
            dim * ((win : ℚ) / ((dim : ℚ) - 1))) /
          ((min L (N - k * H) : ℕ) : ℚ)) := by
  have hlen := blockIdxs_length H L N k
  exact ⟨rfl, hlen, by rw [kthBlockCloud, hlen, kthDT, kthTau]⟩

/-- Closed witness for `kthBlockCloud_params` at `BlockHop = 2`,
`BlockLen = 3`, `N = 4`, `win = 20`, `dim = 20`, `k = 1`. -/
theorem kthBlockCloud_params_witness :
    (1 * 2 < 4) ∧
      (kthTau 20 20 = (20 : ℚ) / ((20 : ℚ) - 1) ∧
        (blockIdxs 2 3 4 1).length = min 3 (4 - 1 * 2) ∧
        kthBlockCloud (fun _ _ => 0) 1 2 3 4 20 20 1 =
          getSlidingWindowVideo
            (fun r p => (fun _ _ => (0 : ℚ)) ((blockIdxs 2 3 4 1).getD r 0) p)
            (min 3 (4 - 1 * 2)) 1 20 ((20 : ℚ) / ((20 : ℚ) - 1))
            ((((min 3 (4 - 1 * 2) : ℕ) : ℚ) -
                20 * ((20 : ℚ) / ((20 : ℚ) - 1))) /
              ((min 3 (4 - 1 * 2) : ℕ) : ℚ))) :=
  ⟨by norm_num, kthBlockCloud_params (fun _ _ => 0) 1 2 3 4 20 20 1 (by norm_num)⟩

/-- `np.mean(r)` of one embedding row. -/
noncomputable def rowMean (r : List ℝ) : ℝ := r.sum / r.length

/-- One row of `XS - np.mean(XS, 1)[:, None]`: subtract the row's own
mean from each entry. -/
noncomputable def centerRow (r : List ℝ) : List ℝ := r.map (fun x => x - rowMean r)

/-- `np.sum(r**2)` of one row. -/
noncomputable def rowSumSq (r : List ℝ) : ℝ := (r.map (fun x => x ^ 2)).sum

/-- `np.sqrt(np.sum(r**2))` of one row. -/
noncomputable def rowNorm (r : List ℝ) : ℝ := Real.sqrt (rowSumSq r)

/-- The two normalization lines of the notebook,
`XS = XS - np.mean(XS, 1)[:, None]` then
`XS = XS/np.sqrt(np.sum(XS**2, 1))[:, None]`: each row is mean-centered
by its own mean and divided entrywise by its own L2 norm,
unconditionally (there is no branch for a zero norm). -/
noncomputable def normalizeRows (XS : List (List ℝ)) : List (List ℝ) :=
  XS.map (fun r => (centerRow r).map (fun x => x / rowNorm (centerRow r)))

lemma sum_map_sub_const (r : List ℝ) (c : ℝ) :
    (r.map (fun x => x - c)).sum = r.sum - r.length * c := by
  induction r with
  | nil => simp
  | cons a r ih =>
    simp only [List.map_cons, List.sum_cons, List.length_cons, ih]
    push_cast
    ring

lemma sum_map_div (r : List ℝ) (c : ℝ) :
    (r.map (fun x => x / c)).sum = r.sum / c := by
  induction r with
  | nil => simp
  | cons a r ih =>
    simp only [List.map_cons, List.sum_cons, ih]
    rw [div_add_div_same]

lemma rowSumSq_map_div (r : List ℝ) (c : ℝ) :
    rowSumSq (r.map (fun x => x / c)) = rowSumSq r / c ^ 2 := by
  rw [rowSumSq, rowSumSq, List.map_map, ← sum_map_div (r.map (fun x => x ^ 2)) (c ^ 2),
    List.map_map]
  refine congrArg List.sum (List.map_congr_left ?_)
  intro x _
  simp [Function.comp, div_pow]

lemma rowSumSq_nonneg (r : List ℝ) : 0 ≤ rowSumSq r := by
  apply List.sum_nonneg
  intro x hx
  obtain ⟨y, _, rfl⟩ := List.mem_map.mp hx
  positivity

lemma sum_centerRow (r : List ℝ) (hr : r ≠ []) : (centerRow r).sum = 0 := by
  have hlen : (r.length : ℝ) ≠ 0 := by
    simp only [ne_eq, Nat.cast_eq_zero, List.length_eq_zero]
    exact hr
  rw [centerRow, sum_map_sub_const, rowMean, mul_div_cancel₀ _ hlen, sub_self]

/-- C7: every row of the normalized sliding-window cloud coming from a
non-degenerate window (nonzero mean-centered sum of squares) has mean
exactly `0` and L2 norm exactly `1` in exact arithmetic, having been
centered by its own mean and divided by its own norm. -/
theorem normalizeRows_mean_zero_norm_one (XS : List (List ℝ)) (r : List ℝ)
    (hr : r ∈ XS) (hnd : rowSumSq (centerRow r) ≠ 0) :
    ∃ nr ∈ normalizeRows XS,
      nr = (centerRow r).map (fun x => x / rowNorm (centerRow r)) ∧
      rowMean nr = 0 ∧ rowNorm nr = 1 := by
  have hrne : r ≠ [] := by
    intro h0
    apply hnd
    rw [h0]
    simp [centerRow, rowSumSq]
  have hSpos : 0 < rowSumSq (centerRow r) :=
    lt_of_le_of_ne (rowSumSq_nonneg _) (Ne.symm hnd)
  refine ⟨(centerRow r).map (fun x => x / rowNorm (centerRow r)),
    List.mem_map_of_mem _ hr, rfl, ?_, ?_⟩
  · rw [rowMean, sum_map_div, sum_centerRow r hrne, zero_div, zero_div]
  · rw [rowNorm, rowSumSq_map_div, rowNorm,
      Real.sq_sqrt (le_of_lt hSpos), div_self (ne_of_gt hSpos), Real.sqrt_one]

/-- Closed witness for `normalizeRows_mean_zero_norm_one` on the cloud
`[[0, 2]]`. -/
theorem normalizeRows_mean_zero_norm_one_witness :
    ([(0 : ℝ), 2] ∈ [[(0 : ℝ), 2]]) ∧
      rowSumSq (centerRow [(0 : ℝ), 2]) ≠ 0 ∧
      (∃ nr ∈ normalizeRows [[(0 : ℝ), 2]],
        nr = (centerRow [(0 : ℝ), 2]).map
          (fun x => x / rowNorm (centerRow [(0 : ℝ), 2])) ∧
        rowMean nr = 0 ∧ rowNorm nr = 1) := by
  have h1 : [(0 : ℝ), 2] ∈ [[(0 : ℝ), 2]] := by simp
  have h2 : rowSumSq (centerRow [(0 : ℝ), 2]) ≠ 0 := by
    simp [rowSumSq, centerRow, rowMean]
    norm_num
  exact ⟨h1, h2, normalizeRows_mean_zero_norm_one [[(0 : ℝ), 2]] _ h1 h2⟩

/-- C6, evaluated at the failing input: for the fully static window
`[3, 3, 3]`, mean-centering yields the zero row with zero sum of squares,
yet `normalizeRows` still divides by its (zero) norm — there is no
flagging branch and no sentinel in the code. Under IEEE semantics this
division is `0/0 = NaN`, propagated into `doRipsFiltration`; the exact
model shows the division by zero occurring (with Lean's `x/0 = 0`
convention). -/
theorem normalizeRows_degenerate_divides_by_zero :
    rowSumSq (centerRow [(3 : ℝ), 3, 3]) = 0 ∧
      rowNorm (centerRow [(3 : ℝ), 3, 3]) = 0 ∧
      normalizeRows [[(3 : ℝ), 3, 3]] = [[0, 0, 0]] ∧
      rowNorm ((normalizeRows [[(3 : ℝ), 3, 3]]).getD 0 []) ≠ 1 := by
  have hmean : rowMean [(3 : ℝ), 3, 3] = 3 := by
    rw [rowMean]
    norm_num
  have hcent : centerRow [(3 : ℝ), 3, 3] = [0, 0, 0] := by
    rw [centerRow, hmean]
    norm_num
  have hss : rowSumSq (centerRow [(3 : ℝ), 3, 3]) = 0 := by
    rw [hcent, rowSumSq]
    norm_num
  have hnorm : rowNorm (centerRow [(3 : ℝ), 3, 3]) = 0 := by
    rw [rowNorm, hss, Real.sqrt_zero]
  have hrows : normalizeRows [[(3 : ℝ), 3, 3]] = [[0, 0, 0]] := by
    rw [normalizeRows]
    simp only [List.map_cons, List.map_nil]
    rw [hcent]
    rw [hcent] at hnorm
    rw [hnorm]
    norm_num
  refine ⟨hss, hnorm, hrows, ?_⟩
  rw [hrows]
  simp only [List.getD_cons_zero]
  rw [rowNorm, rowSumSq]
  norm_num

/-- `np.max(PDs[1][:, 1] - PDs[1][:, 0])` for a (nonempty) degree-1
diagram given as a list of (birth, death) pairs; the `[]` case is never
reached by `blockScore` (the code guards on `PDs[1].size > 0`). -/
def diagramMaxGap : List (ℚ × ℚ) → ℚ
  | [] => 0
  | bd :: rest => (rest.map (fun p => p.2 - p.1)).foldl max (bd.2 - bd.1)

/-- `res[j]` after one iteration of the scoring loop: it stays `0` when
`len(PDs) < 2` (the `continue`) or when the degree-1 diagram is empty
(the `if PDs[1].size > 0` guard fails); otherwise it is
`np.max(PDs[1][:, 1] - PDs[1][:, 0])`. -/
def blockScore (PDs : List (List (ℚ × ℚ))) : ℚ :=
  if PDs.length < 2 then 0
  else if PDs.getD 1 [] = [] then 0
  else diagramMaxGap (PDs.getD 1 [])

/-- The `scores[i]` accumulation over a video's blocks: starting from
`0`, replace the running value by `res[j]` whenever `res[j] > scores[i]`. -/
def videoScore (blocksPDs : List (List (List (ℚ × ℚ)))) : ℚ :=
  blocksPDs.foldl
    (fun s PDs => if s < blockScore PDs then blockScore PDs else s) 0

lemma le_foldl_max (l : List ℚ) :
    ∀ a : ℚ, a ≤ l.foldl max a ∧ ∀ x ∈ l, x ≤ l.foldl max a := by
  induction l with
  | nil =>
    intro a
    exact ⟨le_refl a, by simp⟩
  | cons b l ih =>
    intro a
    obtain ⟨h1, h2⟩ := ih (max a b)
    refine ⟨le_trans (le_max_left a b) h1, ?_⟩
    intro x hx
    rcases List.mem_cons.mp hx with rfl | hx
    · exact le_trans (le_max_right a x) h1
    · exact h2 x hx

lemma foldl_max_cases (l : List ℚ) :
    ∀ a : ℚ, l.foldl max a = a ∨ l.foldl max a ∈ l := by
  induction l with
  | nil =>
    intro a
    exact Or.inl rfl
  | cons b l ih =>
    intro a
    rw [List.foldl_cons]
    rcases ih (max a b) with h | h
    · rcases max_cases a b with ⟨hm, _⟩ | ⟨hm, _⟩
      · exact Or.inl (by rw [h, hm])
      · exact Or.inr (by rw [h, hm]; exact List.mem_cons_self b l)
    · exact Or.inr (List.mem_cons_of_mem b h)

lemma diagramMaxGap_mem (bd : ℚ × ℚ) (rest : List (ℚ × ℚ)) :
    diagramMaxGap (bd :: rest) ∈
      ((bd :: rest).map (fun p => p.2 - p.1)) := by
  rw [diagramMaxGap, List.map_cons]
  rcases foldl_max_cases (rest.map (fun p => p.2 - p.1)) (bd.2 - bd.1) with h | h
  · rw [h]
    exact List.mem_cons_self _ _
  · exact List.mem_cons_of_mem _ h

lemma diagramMaxGap_ge (bd : ℚ × ℚ) (rest : List (ℚ × ℚ)) :
    ∀ p ∈ bd :: rest, p.2 - p.1 ≤ diagramMaxGap (bd :: rest) := by
  intro p hp
  rw [diagramMaxGap]
  obtain ⟨h1, h2⟩ := le_foldl_max (rest.map (fun q => q.2 - q.1)) (bd.2 - bd.1)
  rcases List.mem_cons.mp hp with rfl | hp
  · exact h1
  · exact h2 _ (List.mem_map_of_mem _ hp)

lemma blockScore_nonneg (PDs : List (List (ℚ × ℚ)))
    (hvalid : ∀ bd ∈ PDs.getD 1 [], bd.1 ≤ bd.2) : 0 ≤ blockScore PDs := by
  rw [blockScore]
  by_cases h1 : PDs.length < 2
  · rw [if_pos h1]
  · rw [if_neg h1]
    by_cases h2 : PDs.getD 1 [] = []
    · rw [if_pos h2]
    · rw [if_neg h2]
      obtain ⟨bd, rest, hD⟩ := List.exists_cons_of_ne_nil h2
      rw [hD]
      have hbd : bd ∈ PDs.getD 1 [] := by rw [hD]; exact List.mem_cons_self _ _
      have h0 : 0 ≤ bd.2 - bd.1 := by linarith [hvalid bd hbd]
      calc (0 : ℚ) ≤ bd.2 - bd.1 := h0
        _ ≤ diagramMaxGap (bd :: rest) :=
            diagramMaxGap_ge bd rest bd (List.mem_cons_self _ _)

lemma videoScore_eq_foldl (blocksPDs : List (List (List (ℚ × ℚ)))) :
    videoScore blocksPDs = (blocksPDs.map blockScore).foldl max 0 := by
  rw [videoScore, List.foldl_map]
  refine congrFun (congrFun (congrArg _ ?_) _) _
  funext s r
  rcases lt_or_le s (blockScore r) with h | h
  · rw [if_pos h, max_eq_right (le_of_lt h)]
  · rw [if_neg (not_lt.mpr h), max_eq_left h]

/-- C8: each block's score is `max(death - birth)` over the degree-1
pairs and `0` when the degree-1 diagram is empty or absent; for valid
diagrams (`birth ≤ death`) over a nonempty block list, the video's
overall score is the maximum block score. -/
theorem videoScore_max (blocksPDs : List (List (List (ℚ × ℚ))))
    (hne : blocksPDs ≠ [])
    (hvalid : ∀ PDs ∈ blocksPDs, ∀ bd ∈ PDs.getD 1 [], bd.1 ≤ bd.2) :
    (∀ PDs ∈ blocksPDs,
      (PDs.length < 2 ∨ PDs.getD 1 [] = []) → blockScore PDs = 0) ∧
    (∀ PDs ∈ blocksPDs, 2 ≤ PDs.length → PDs.getD 1 [] ≠ [] →
      blockScore PDs ∈ (PDs.getD 1 []).map (fun bd => bd.2 - bd.1) ∧
        ∀ bd ∈ PDs.getD 1 [], bd.2 - bd.1 ≤ blockScore PDs) ∧
    videoScore blocksPDs ∈ blocksPDs.map blockScore ∧
    (∀ PDs ∈ blocksPDs, blockScore PDs ≤ videoScore blocksPDs) := by
  obtain ⟨PDs0, rest, rfl⟩ := List.exists_cons_of_ne_nil hne
  have hv0 : 0 ≤ blockScore PDs0 :=
    blockScore_nonneg PDs0 (hvalid PDs0 (List.mem_cons_self _ _))
  have hfold : videoScore (PDs0 :: rest) =
      (rest.map blockScore).foldl max (blockScore PDs0) := by
    rw [videoScore_eq_foldl, List.map_cons, List.foldl_cons,
      max_eq_right hv0]
  refine ⟨?_, ?_, ?_, ?_⟩
  · intro PDs _ h
    rcases h with h | h
    · rw [blockScore, if_pos h]
    · rw [blockScore]
      by_cases h1 : PDs.length < 2
      · rw [if_pos h1]
      · rw [if_neg h1, if_pos h]
  · intro PDs _ h1 h2
    obtain ⟨bd, rest2, hD⟩ := List.exists_cons_of_ne_nil h2
    have hbs : blockScore PDs = diagramMaxGap (PDs.getD 1 []) := by
      rw [blockScore, if_neg (not_lt.mpr h1), if_neg h2]
    constructor
    · rw [hbs, hD]
      exact diagramMaxGap_mem bd rest2
    · intro bd2 hbd2
      rw [hbs, hD]
      exact diagramMaxGap_ge bd rest2 bd2 (by rwa [hD] at hbd2)
  · rw [hfold, List.map_cons]
    rcases foldl_max_cases (rest.map blockScore) (blockScore PDs0) with h | h
    · rw [h]
      exact List.mem_cons_self _ _
    · exact List.mem_cons_of_mem _ h
  · intro PDs hPDs
    rw [hfold]
    obtain ⟨h1, h2⟩ := le_foldl_max (rest.map blockScore) (blockScore PDs0)
    rcases List.mem_cons.mp hPDs with rfl | hPDs
    · exact h1
    · exact h2 _ (List.mem_map_of_mem _ hPDs)

/-- Closed witness for `videoScore_max` on two blocks: one with diagram
`[(1, 3)]` in degree 1 and one with empty diagrams. -/
theorem videoScore_max_witness :
    (([[[((0 : ℚ), 0)], [((1 : ℚ), 3)]], [[], []]] :
        List (List (List (ℚ × ℚ)))) ≠ []) ∧
      (∀ PDs ∈ ([[[((0 : ℚ), 0)], [((1 : ℚ), 3)]], [[], []]] :
          List (List (List (ℚ × ℚ)))),
        ∀ bd ∈ PDs.getD 1 [], bd.1 ≤ bd.2) ∧
      ((∀ PDs ∈ ([[[((0 : ℚ), 0)], [((1 : ℚ), 3)]], [[], []]] :
          List (List (List (ℚ × ℚ)))),
        (PDs.length < 2 ∨ PDs.getD 1 [] = []) → blockScore PDs = 0) ∧
      (∀ PDs ∈ ([[[((0 : ℚ), 0)], [((1 : ℚ), 3)]], [[], []]] :
          List (List (List (ℚ × ℚ)))),
        2 ≤ PDs.length → PDs.getD 1 [] ≠ [] →
        blockScore PDs ∈ (PDs.getD 1 []).map (fun bd => bd.2 - bd.1) ∧
          ∀ bd ∈ PDs.getD 1 [], bd.2 - bd.1 ≤ blockScore PDs) ∧
      videoScore ([[[((0 : ℚ), 0)], [((1 : ℚ), 3)]], [[], []]] :
          List (List (List (ℚ × ℚ)))) ∈
        ([[[((0 : ℚ), 0)], [((1 : ℚ), 3)]], [[], []]] :
          List (List (List (ℚ × ℚ)))).map blockScore ∧
      (∀ PDs ∈ ([[[((0 : ℚ), 0)], [((1 : ℚ), 3)]], [[], []]] :
          List (List (List (ℚ × ℚ)))),
        blockScore PDs ≤
          videoScore ([[[((0 : ℚ), 0)], [((1 : ℚ), 3)]], [[], []]] :
            List (List (List (ℚ × ℚ)))))) := by
  have hne : ([[[((0 : ℚ), 0)], [((1 : ℚ), 3)]], [[], []]] :
      List (List (List (ℚ × ℚ)))) ≠ [] := by simp
  have hvalid : ∀ PDs ∈ ([[[((0 : ℚ), 0)], [((1 : ℚ), 3)]], [[], []]] :
      List (List (List (ℚ × ℚ)))), ∀ bd ∈ PDs.getD 1 [], bd.1 ≤ bd.2 := by
    intro PDs hPDs bd hbd
    rcases List.mem_cons.mp hPDs with rfl | hPDs
    · simp only [List.getD_cons_succ, List.getD_cons_zero] at hbd
      rcases List.mem_cons.mp hbd with rfl | hbd
      · norm_num
      · simp at hbd
    · rcases List.mem_cons.mp hPDs with rfl | hPDs
      · simp only [List.getD_cons_succ, List.getD_cons_zero] at hbd
        simp at hbd
      · simp at hPDs
  exact ⟨hne, hvalid, videoScore_max _ hne hvalid⟩

/-- `np.argsort(-scores) + 1` from the ranking cell: indices `0..n-1`
sorted so that scores are descending (`np.argsort` uses an unspecified
tie-break; modelled by a comparison sort on the indices), then shifted to
1-based. -/
def rankVideos (scores : List ℚ) : List ℕ :=
  (List.insertionSort
      (fun i j => scores.getD j 0 ≤ scores.getD i 0)
      (List.range scores.length)).map (fun i => i + 1)

/-- C10: the ranking is a permutation of the 1-based indices
`1..n`, and along it scores are pairwise descending, so a video with a
strictly larger score always precedes one with a strictly smaller score. -/
theorem rankVideos_perm_sorted (scores : List ℚ) :
    (rankVideos scores).Perm
        ((List.range scores.length).map (fun i => i + 1)) ∧
      (rankVideos scores).Pairwise
        (fun a b => scores.getD (b - 1) 0 ≤ scores.getD (a - 1) 0) := by
  constructor
  · exact (List.perm_insertionSort _ _).map _
  · have hs : (List.insertionSort
        (fun i j => scores.getD j 0 ≤ scores.getD i 0)
        (List.range scores.length)).Pairwise
        (fun i j => scores.getD j 0 ≤ scores.getD i 0) := by
      haveI : IsTotal ℕ (fun i j => scores.getD j 0 ≤ scores.getD i 0) :=
        ⟨fun i j => le_total _ _⟩
      haveI : IsTrans ℕ (fun i j => scores.getD j 0 ≤ scores.getD i 0) :=
        ⟨fun _ _ _ h1 h2 => le_trans h2 h1⟩
      exact List.sorted_insertionSort _ _
    rw [rankVideos]
    refine List.Pairwise.map _ ?_ hs
    intro a b h
    simpa using h

open Matrix

/-- Relational specification of `[lam, V] = linalg.eigh(ICov)` for the
symmetric matrix `ICov`: `V` is orthogonal (`Vᵀ V = 1`),
`ICov = V * diag(lam) * Vᵀ`, and the eigenvalues come out ascending. -/
def IsEigh {N : ℕ} (G : Matrix (Fin N) (Fin N) ℝ) (lam : Fin N → ℝ)
    (V : Matrix (Fin N) (Fin N) ℝ) : Prop :=
  Vᵀ * V = 1 ∧ G = V * Matrix.diagonal lam * Vᵀ ∧ Monotone lam

/-- `getPCAVideo`: after `ICov = I.dot(I.T)` and
`[lam, V] = linalg.eigh(ICov)`, the returned matrix
`V*np.sqrt(lam[None, :])` — column `k` of `V` scaled by `sqrt(lam k)`.
(`np.sqrt` is NaN on negatives while `Real.sqrt` is `0` there; the two
agree on the nonnegative eigenvalues a Gram matrix actually has, see
`getPCAVideo_clamp`.) -/
noncomputable def getPCAVideo {N : ℕ} (V : Matrix (Fin N) (Fin N) ℝ)
    (lam : Fin N → ℝ) : Matrix (Fin N) (Fin N) ℝ :=
  Matrix.of fun i k => V i k * Real.sqrt (lam k)

/-- Modelled from the spec's words: "return V scaled column-wise by
sqrt(max(λ,0))", for comparison with the code's `getPCAVideo`. -/
noncomputable def getPCAVideoClamped {N : ℕ} (V : Matrix (Fin N) (Fin N) ℝ)
    (lam : Fin N → ℝ) : Matrix (Fin N) (Fin N) ℝ :=
  Matrix.of fun i k => V i k * Real.sqrt (max (lam k) 0)

lemma isEigh_gram_nonneg {N P : ℕ} (X : Matrix (Fin N) (Fin P) ℝ)
    (lam : Fin N → ℝ) (V : Matrix (Fin N) (Fin N) ℝ)
    (h : IsEigh (X * Xᵀ) lam V) (k : Fin N) : 0 ≤ lam k := by
  obtain ⟨ho, hg, _⟩ := h
  have e : (Vᵀ * X) * (Vᵀ * X)ᵀ = Matrix.diagonal lam := by
    calc (Vᵀ * X) * (Vᵀ * X)ᵀ
        = Vᵀ * (X * Xᵀ) * V := by
          rw [Matrix.transpose_mul, Matrix.transpose_transpose]
          simp only [Matrix.mul_assoc]
      _ = Vᵀ * (V * Matrix.diagonal lam * Vᵀ) * V := by rw [hg]
      _ = (Vᵀ * V) * Matrix.diagonal lam * (Vᵀ * V) := by
          simp only [Matrix.mul_assoc]
      _ = Matrix.diagonal lam := by rw [ho, Matrix.one_mul, Matrix.mul_one]
  have ek : ((Vᵀ * X) * (Vᵀ * X)ᵀ) k k = lam k := by
    rw [e, Matrix.diagonal_apply_eq]
  rw [← ek, Matrix.mul_apply]
  apply Finset.sum_nonneg
  intro p _
  rw [Matrix.transpose_apply]
  exact mul_self_nonneg _

/-- C3: for any eigendecomposition of the Gram matrix `X·Xᵗ`, all
eigenvalues are nonnegative, so the code's `V*np.sqrt(lam)` coincides
with the spec's clamped `V*sqrt(max(lam, 0))` and the square roots are
taken of nonnegative numbers only (no NaN entries arise). -/
theorem getPCAVideo_clamp {N P : ℕ} (X : Matrix (Fin N) (Fin P) ℝ)
    (lam : Fin N → ℝ) (V : Matrix (Fin N) (Fin N) ℝ)
    (h : IsEigh (X * Xᵀ) lam V) :
    (∀ k, 0 ≤ lam k) ∧ getPCAVideo V lam = getPCAVideoClamped V lam := by
  refine ⟨isEigh_gram_nonneg X lam V h, ?_⟩
  ext i k
  rw [getPCAVideo, getPCAVideoClamped]
  simp only [Matrix.of_apply]
  rw [max_eq_left (isEigh_gram_nonneg X lam V h k)]

lemma sum_sub_sq {ι : Type} [Fintype ι] (u v : ι → ℝ) :
    ∑ x, (u x - v x) ^ 2 =
      ((∑ x, u x * u x) - 2 * ∑ x, u x * v x) + ∑ x, v x * v x := by
  have hx : ∀ x : ι, (u x - v x) ^ 2 =
      (u x * u x - 2 * (u x * v x)) + v x * v x := by
    intro x
    ring
  simp only [hx]
  rw [Finset.sum_add_distrib, Finset.sum_sub_distrib, ← Finset.mul_sum]

lemma getPCAVideo_cross {N P : ℕ} (X : Matrix (Fin N) (Fin P) ℝ)
    (lam : Fin N → ℝ) (V : Matrix (Fin N) (Fin N) ℝ)
    (h : IsEigh (X * Xᵀ) lam V) (a b : Fin N) :
    ∑ k, getPCAVideo V lam a k * getPCAVideo V lam b k =
      ∑ p, X a p * X b p := by
  have hg := h.2.1
  have hXg : (X * Xᵀ) a b = ∑ p, X a p * X b p := by
    rw [Matrix.mul_apply]
    refine Finset.sum_congr rfl ?_
    intro p _
    rw [Matrix.transpose_apply]
  have hVg : (V * Matrix.diagonal lam * Vᵀ) a b =
      ∑ k, V a k * lam k * V b k := by
    rw [Matrix.mul_apply]
    refine Finset.sum_congr rfl ?_
    intro k _
    rw [Matrix.mul_diagonal, Matrix.transpose_apply]
  calc ∑ k, getPCAVideo V lam a k * getPCAVideo V lam b k
      = ∑ k, V a k * lam k * V b k := by
        refine Finset.sum_congr rfl ?_
        intro k _
        rw [getPCAVideo]
        simp only [Matrix.of_apply]
        have hk := isEigh_gram_nonneg X lam V h k
        rw [show V a k * Real.sqrt (lam k) * (V b k * Real.sqrt (lam k)) =
          V a k * V b k * (Real.sqrt (lam k) * Real.sqrt (lam k)) from by ring,
          Real.mul_self_sqrt hk]
        ring
    _ = (V * Matrix.diagonal lam * Vᵀ) a b := hVg.symm
    _ = (X * Xᵀ) a b := by rw [← hg]
    _ = ∑ p, X a p * X b p := hXg

/-- C4: the rows of `getPCAVideo` are an isometric image of the rows of
`X`: squared Euclidean distances between any two rows agree exactly. -/
theorem getPCAVideo_isometry {N P : ℕ} (X : Matrix (Fin N) (Fin P) ℝ)
    (lam : Fin N → ℝ) (V : Matrix (Fin N) (Fin N) ℝ)
    (h : IsEigh (X * Xᵀ) lam V) (i j : Fin N) :
    ∑ k, (getPCAVideo V lam i k - getPCAVideo V lam j k) ^ 2 =
      ∑ p, (X i p - X j p) ^ 2 := by
  rw [sum_sub_sq (fun k => getPCAVideo V lam i k)
      (fun k => getPCAVideo V lam j k),
    sum_sub_sq (fun p => X i p) (fun p => X j p),
    getPCAVideo_cross X lam V h i i, getPCAVideo_cross X lam V h i j,
    getPCAVideo_cross X lam V h j j]

/-- Concrete 2-frame, 1-pixel series used to witness the PCA theorems. -/
def pcaX : Matrix (Fin 2) (Fin 1) ℝ :=
  Matrix.of fun i _ => if i = 0 then 0 else 2

/-- Eigenvalues of `pcaX * pcaXᵀ = diag(0, 4)`, ascending. -/
def pcaLam : Fin 2 → ℝ := fun k => if k = 0 then 0 else 4

lemma pcaX_isEigh : IsEigh (pcaX * pcaXᵀ) pcaLam 1 := by
  refine ⟨by rw [Matrix.transpose_one, Matrix.one_mul], ?_, ?_⟩
  · rw [Matrix.transpose_one, Matrix.mul_one, Matrix.one_mul]
    ext i j
    fin_cases i <;> fin_cases j <;>
      simp [pcaX, pcaLam, Matrix.mul_apply, Fin.sum_univ_one,
        Matrix.diagonal] <;> norm_num
  · intro a b hab
    fin_cases a <;> fin_cases b
    · exact le_refl _
    · show pcaLam 0 ≤ pcaLam 1
      simp [pcaLam]
    · exact absurd hab (by decide)
    · exact le_refl _

/-- Closed witness for `getPCAVideo_clamp` on `pcaX`, `pcaLam`, `V = 1`. -/
theorem getPCAVideo_clamp_witness :
    IsEigh (pcaX * pcaXᵀ) pcaLam 1 ∧
      ((∀ k, 0 ≤ pcaLam k) ∧
        getPCAVideo 1 pcaLam = getPCAVideoClamped 1 pcaLam) :=
  ⟨pcaX_isEigh, getPCAVideo_clamp pcaX pcaLam 1 pcaX_isEigh⟩

/-- Closed witness for `getPCAVideo_isometry` on `pcaX`, `pcaLam`,
`V = 1`, rows `0` and `1`. -/
theorem getPCAVideo_isometry_witness :
    IsEigh (pcaX * pcaXᵀ) pcaLam 1 ∧
      ∑ k, (getPCAVideo 1 pcaLam 0 k - getPCAVideo 1 pcaLam 1 k) ^ 2 =
        ∑ p, (pcaX 0 p - pcaX 1 p) ^ 2 :=
  ⟨pcaX_isEigh, getPCAVideo_isometry pcaX pcaLam 1 pcaX_isEigh 0 1⟩
